import Mathlib

/-!
Verification development for the source-code symbol index and patch engine
of the repository (tree.py, llm_query.py and their tests).

The Python code is shallowly embedded: dictionaries become association
lists, SQLite tables become lists of rows in rowid (insertion) order,
mutation becomes explicit state passing, and exceptions become `Except`.
Byte strings are lists of naturals (each < 256 in practice).
-/

namespace Spec2Proof

/-! ## Generic helpers: stable insertion sort (model of Python list.sort /
    sorted, which are stable) and association-list operations. -/

/-- Insert `x` into `l` keeping it after all earlier elements whose key is
not greater, i.e. the stable placement used by Python's sort. -/
def insertStable {α : Type} (lt : α → α → Bool) (x : α) : List α → List α
  | [] => [x]
  | y :: ys => if lt y x then y :: insertStable lt x ys else x :: y :: ys

/-- Stable insertion sort: a model of Python's stable `list.sort(key=...)`. -/
def stableSort {α : Type} (lt : α → α → Bool) : List α → List α
  | [] => []
  | x :: xs => insertStable lt x (stableSort lt xs)

/-! ## Patch engine (BlockPatch).

`BlockPatch` is imported from `tree` by `llm_query.py` and `test_tree.py`
but its implementation is not part of the sources available here.

Modelled from the spec: the Patch Engine of §4.6 — `BlockPatch` holding
parallel lists of file path, `(start_byte, end_byte)` range,
`expected_original_bytes` and `replacement_bytes`; validation (run before
either operation) sorts each file's ranges by start offset and rejects
adjacent ranges with `start[i+1] < end[i]` as overlapping, then requires
the bytes currently on disk at each range to equal
`expected_original_bytes` bit-for-bit, any mismatch aborting the whole
request; `generate_diff` splices replacements into the original content
(no-op ranges yield no diff); `apply` performs the same splice and writes
back, returning the new content per file. -/

/-- One requested edit: one entry of the parallel lists of a `BlockPatch`. -/
structure PatchItem where
  path : String
  start : Nat
  stop : Nat
  expected : List Nat
  repl : List Nat
deriving Repr, DecidableEq

/-- A byte range together with its expected/replacement content, grouped
under its file. -/
structure EditRange where
  start : Nat
  stop : Nat
  expected : List Nat
  repl : List Nat
deriving Repr, DecidableEq

/-- The file system: association list from path to byte content. -/
abbrev FS : Type := List (String × List Nat)

/-- Look up a file's current bytes. -/
def fsRead (fs : FS) (p : String) : Option (List Nat) :=
  match fs.find? (fun e => e.1 = p) with
  | some e => some e.2
  | none => none

/-- Overwrite the first binding of `p` with `content`. -/
def fsWrite (fs : FS) (p : String) (content : List Nat) : FS :=
  match fs with
  | [] => []
  | e :: rest => if e.1 = p then (p, content) :: rest else e :: fsWrite rest p content

/-- Validation errors of the patch engine (spec §7:
`PatchOverlapError` / `PatchContentMismatchError`, naming the file/range). -/
inductive PatchError where
  | overlap (path : String)
  | contentMismatch (path : String) (start stop : Nat)
  | missingFile (path : String)
deriving Repr, DecidableEq

/-- The range of a patch item, forgetting the file. -/
def PatchItem.range (it : PatchItem) : EditRange :=
  ⟨it.start, it.stop, it.expected, it.repl⟩

/-- Append range `r` to the group of file `p`, creating the group at the
end when absent (Python dict-of-lists grouping in first-seen order). -/
def addToGroups (gs : List (String × List EditRange)) (p : String) (r : EditRange) :
    List (String × List EditRange) :=
  match gs with
  | [] => [(p, [r])]
  | (q, rs) :: rest =>
      if q = p then (q, rs ++ [r]) :: rest else (q, rs) :: addToGroups rest p r

/-- Group a request's ranges by file, preserving order. -/
def groupByFile (req : List PatchItem) : List (String × List EditRange) :=
  req.foldl (fun gs it => addToGroups gs it.path it.range) []

/-- Sort a file's ranges by start offset (stable, like Python's sort). -/
def sortRanges (rs : List EditRange) : List EditRange :=
  stableSort (fun a b => a.start < b.start) rs

/-- Adjacent-overlap test on a list already sorted by start offset:
some `start[i+1] < end[i]`. -/
def hasAdjacentOverlap : List EditRange → Bool
  | [] => false
  | [_] => false
  | a :: b :: rest => b.start < a.stop || hasAdjacentOverlap (b :: rest)

/-- Phase one of validation: reject the first file whose sorted ranges
contain an adjacent overlap. -/
def checkOverlaps : List (String × List EditRange) → Except PatchError Unit
  | [] => .ok ()
  | (p, rs) :: rest =>
      if hasAdjacentOverlap (sortRanges rs) then .error (.overlap p)
      else checkOverlaps rest

/-- Python-style byte slice `content[start:stop]` (truncating at the end). -/
def sliceBytes (content : List Nat) (start stop : Nat) : List Nat :=
  (content.drop start).take (stop - start)

/-- Phase two of validation: each range's current on-disk bytes must equal
`expected_original_bytes` bit-for-bit. -/
def checkContents (fs : FS) : List PatchItem → Except PatchError Unit
  | [] => .ok ()
  | it :: rest =>
      match fsRead fs it.path with
      | none => .error (.missingFile it.path)
      | some content =>
          if sliceBytes content it.start it.stop = it.expected then
            checkContents fs rest
          else .error (.contentMismatch it.path it.start it.stop)

/-- Full validation, run before either operation. -/
def validatePatch (fs : FS) (req : List PatchItem) : Except PatchError Unit :=
  match checkOverlaps (groupByFile req) with
  | .error e => .error e
  | .ok _ => checkContents fs req

/-- Splice the replacements of ranges (sorted by start) into `content`,
starting from byte `pos`. -/
def spliceFrom (content : List Nat) (pos : Nat) : List EditRange → List Nat
  | [] => content.drop pos
  | r :: rest =>
      (content.drop pos).take (r.start - pos) ++ r.repl ++ spliceFrom content r.stop rest

/-- New content of one file after applying its sorted ranges. -/
def spliceFile (content : List Nat) (rs : List EditRange) : List Nat :=
  spliceFrom content 0 (sortRanges rs)

/-- The changed files of a validated request: ranges whose original and
replacement coincide are silently skipped (no-op edits), and a file with
only no-op ranges is omitted. -/
def changedFiles (fs : FS) (req : List PatchItem) : List (String × List Nat) :=
  (groupByFile req).filterMap fun g =>
    if (g.2.filter (fun r => r.expected ≠ r.repl)).isEmpty then none
    else match fsRead fs g.1 with
      | some content => some (g.1, spliceFile content g.2)
      | none => none

/-- `generate_diff`: after validation, the per-file (original, new) content
pairs from which the unified diff text is rendered; an all-no-op request
yields the empty list (empty diff). -/
def generate_diff (fs : FS) (req : List PatchItem) :
    Except PatchError (List (String × List Nat × List Nat)) :=
  match validatePatch fs req with
  | .error e => .error e
  | .ok _ =>
      .ok ((changedFiles fs req).filterMap fun c =>
        match fsRead fs c.1 with
        | some content => some (c.1, content, c.2)
        | none => none)

/-- `apply_patch`: after validation, write each changed file's spliced
content back and return the map of new contents; on a validation error the
file system is returned unchanged together with the error. -/
def apply_patch (fs : FS) (req : List PatchItem) :
    FS × Except PatchError (List (String × List Nat)) :=
  match validatePatch fs req with
  | .error e => (fs, .error e)
  | .ok _ =>
      let changed := changedFiles fs req
      (changed.foldl (fun acc c => fsWrite acc c.1 c.2) fs, .ok changed)

/-! ## CRC32 definition hash (tree.py `calculate_crc32_hash`):
`zlib.crc32(text.encode("utf-8"))`, the standard reflected CRC-32 with
polynomial 0xEDB88320, initial value 0xFFFFFFFF and final xor 0xFFFFFFFF. -/

/-- One bit step of the reflected CRC-32. -/
def crcBitStep (crc : Nat) : Nat :=
  if crc % 2 = 1 then (crc / 2) ^^^ 0xEDB88320 else crc / 2

/-- Fold one input byte into the running CRC. -/
def crcByte (crc b : Nat) : Nat :=
  Nat.iterate crcBitStep 8 (crc ^^^ b)

/-- CRC-32 of a byte sequence, as `zlib.crc32` computes it. -/
def crc32Bytes (bs : List Nat) : Nat :=
  (bs.foldl crcByte 0xFFFFFFFF) ^^^ 0xFFFFFFFF

/-- UTF-8 encoding of one code point (the `str.encode("utf-8")` bytes). -/
def utf8Bytes (c : Char) : List Nat :=
  let n := c.toNat
  if n < 0x80 then [n]
  else if n < 0x800 then [0xC0 + n / 0x40, 0x80 + n % 0x40]
  else if n < 0x10000 then
    [0xE0 + n / 0x1000, 0x80 + (n / 0x40) % 0x40, 0x80 + n % 0x40]
  else
    [0xF0 + n / 0x40000, 0x80 + (n / 0x1000) % 0x40, 0x80 + (n / 0x40) % 0x40,
     0x80 + n % 0x40]

/-- Bytes of the UTF-8 encoding of a string. -/
def strBytes (s : String) : List Nat :=
  s.data.flatMap utf8Bytes

/-- tree.py `calculate_crc32_hash`: CRC-32 of the UTF-8 encoding. -/
def calculate_crc32_hash (s : String) : Nat :=
  crc32Bytes (strBytes s)

/-! ## Input validation (tree.py `validate_input`). -/

/-- The deny-list of `validate_input`'s regex `[;'"]`: semicolon,
single quote (code point 39) and double quote (code point 34). -/
def isBannedChar (c : Char) : Bool :=
  c = ';' || c = Char.ofNat 39 || c = Char.ofNat 34

/-- tree.py `validate_input`: empty or over-long values and values holding
a deny-listed character are rejected; the value is returned stripped. -/
def validate_input (value : String) (maxLength : Nat) : Except String String :=
  if value = "" || value.length > maxLength then
    .error "length out of range"
  else if value.data.any isBannedChar then
    .error "illegal character"
  else .ok value.trim

/-! ## Store dedup pipeline (tree.py `check_symbol_duplicate`,
`prepare_insert_data` and the filtering loop of `process_symbols_to_db`). -/

/-- One entry of the in-memory `all_existing_symbols` index
(`get_existing_symbols` stores `(file_path, signature, full_definition_hash)`
tuples per name). -/
structure ExistingEntry where
  file_path : String
  signature : String
  hash : Nat
deriving Repr, DecidableEq

/-- `all_existing_symbols`: name to its known entries, in load order. -/
abbrev ExistingIndex : Type := List (String × List ExistingEntry)

/-- Entries known for `name` (missing name: the empty list). -/
def existingFor (idx : ExistingIndex) (name : String) : List ExistingEntry :=
  match idx.find? (fun e => e.1 = name) with
  | some e => e.2
  | none => []

/-- A candidate symbol as `process_matches` produces it (the fields the
store pipeline reads). -/
structure CandidateSymbol where
  name : String
  type : String
  signature : String
  body : String
  full_definition : String
  calls : List String
deriving Repr, DecidableEq

/-- tree.py `check_symbol_duplicate`: a candidate is a duplicate when an
existing entry for its name carries the same signature (the hash
comparison is commented out in the source). -/
def check_symbol_duplicate (name : String) (signature : String)
    (idx : ExistingIndex) : Bool :=
  match idx.find? (fun e => e.1 = name) with
  | none => false
  | some e => e.2.any (fun ex => ex.signature = signature)

/-- A row prepared for insertion into the `symbols` table
(`prepare_insert_data` tuple, without the auto-generated id). -/
structure InsertRow where
  name : String
  file_path : String
  type : String
  signature : String
  body : String
  full_definition : String
  hash : Nat
  calls : List String
deriving Repr, DecidableEq

/-- tree.py `prepare_insert_data`: drop candidates without a
`full_definition`, drop signature-duplicates, and build the insert rows
(with the CRC-32 of the full definition). -/
def prepare_insert_data (symbols : List CandidateSymbol) (idx : ExistingIndex)
    (full_path : String) : List InsertRow :=
  symbols.filterMap fun s =>
    if s.full_definition = "" then none
    else if check_symbol_duplicate s.name s.signature idx then none
    else some ⟨s.name, full_path, s.type, s.signature, s.body, s.full_definition,
               calculate_crc32_hash s.full_definition, s.calls⟩

/-- Record a new entry for `name` in the in-memory index (creating the
name's bucket when absent, as `all_existing_symbols[name] = []` does). -/
def recordExisting (idx : ExistingIndex) (name : String) (e : ExistingEntry) :
    ExistingIndex :=
  match idx with
  | [] => [(name, [e])]
  | (q, es) :: rest =>
      if q = name then (q, es ++ [e]) :: rest
      else (q, es) :: recordExisting rest name e

/-- The hash-filtering loop of `process_symbols_to_db`: a prepared row is
kept only when no entry for its name already carries the same hash; kept
rows update the in-memory index as the loop goes. -/
def filterByHash (rows : List InsertRow) (idx : ExistingIndex)
    (full_path : String) : List InsertRow × ExistingIndex :=
  rows.foldl
    (fun acc row =>
      if (existingFor acc.2 row.name).any (fun ex => ex.hash = row.hash) then acc
      else (acc.1 ++ [row],
            recordExisting acc.2 row.name ⟨full_path, row.signature, row.hash⟩))
    ([], idx)

/-- The rows actually written to the store for one re-extracted file:
`prepare_insert_data` followed by the hash filter of
`process_symbols_to_db` (the `INSERT OR REPLACE` receives exactly these). -/
def symbolsWrittenToDb (symbols : List CandidateSymbol) (idx : ExistingIndex)
    (full_path : String) : List InsertRow :=
  (filterByHash (prepare_insert_data symbols idx full_path) idx full_path).1

/-! ## Call attribution (tree.py `process_matches`, call-handling part).

`block_array` holds `(symbol_name, start_point, end_point)` for every
extracted function/method body and is sorted by start line; for each call
capture a binary search locates one containing block, the search expands
to both sides while the start line stays in range, and every candidate
surviving the column boundary checks receives the call name (deduplicated
per symbol). -/

/-- A tree-sitter point: `(row, column)`. -/
structure Pt where
  row : Nat
  col : Nat
deriving Repr, DecidableEq

/-- One entry of `block_array`. -/
structure CodeBlock where
  name : String
  startPt : Pt
  endPt : Pt
deriving Repr, DecidableEq

/-- One call capture (`called_function` node): its text and points. -/
structure CallCap where
  name : String
  startPt : Pt
  endPt : Pt
deriving Repr, DecidableEq

/-- `block_start <= called_start_line <= block_end`. -/
def blockHasLine (b : CodeBlock) (line : Nat) : Bool :=
  b.startPt.row ≤ line && line ≤ b.endPt.row

/-- The leftward expansion: collect `arr[i-1], arr[i-2], ...` while the
call line stays inside the block's line range (argument is `i`, the
number of entries to the left of the found index). -/
def expandLeft (arr : Array CodeBlock) (line : Nat) : Nat → List CodeBlock
  | 0 => []
  | i + 1 =>
      match arr[i]? with
      | some b => if blockHasLine b line then b :: expandLeft arr line i else []
      | none => []

/-- The rightward expansion: collect `arr[i], arr[i+1], ...` while the
call line stays inside the block's line range (`fuel` bounds the walk). -/
def expandRight (arr : Array CodeBlock) (line : Nat) : Nat → Nat → List CodeBlock
  | 0, _ => []
  | fuel + 1, i =>
      match arr[i]? with
      | some b => if blockHasLine b line then b :: expandRight arr line fuel (i + 1) else []
      | none => []

/-- The binary-search loop of `process_matches`: find one block whose line
range holds the call line, then expand to both sides; `fuel` only bounds
the loop (the interval shrinks every iteration, so `arr.size + 1`
iterations always suffice). -/
def bsearchBlocks (arr : Array CodeBlock) (line : Nat) :
    Nat → Int → Int → List CodeBlock
  | 0, _, _ => []
  | fuel + 1, left, right =>
      if left ≤ right then
        let mid := (left + right) / 2
        let midN := mid.toNat
        match arr[midN]? with
        | some b =>
            if blockHasLine b line then
              b :: (expandLeft arr line midN ++ expandRight arr line arr.size (midN + 1))
            else if line < b.startPt.row then
              bsearchBlocks arr line fuel left (mid - 1)
            else
              bsearchBlocks arr line fuel (mid + 1) right
        | none => []
      else []

/-- `possible_blocks` for a call line over the sorted block array. -/
def findPossibleBlocks (blocks : List CodeBlock) (line : Nat) : List CodeBlock :=
  let arr := blocks.toArray
  bsearchBlocks arr line (arr.size + 1) 0 ((arr.size : Int) - 1)

/-- The exact containment test applied to each candidate: line containment
with the two column tie-breaks at range boundaries. -/
def withinBlock (c : CallCap) (b : CodeBlock) : Bool :=
  let w1 := b.startPt.row ≤ c.startPt.row && c.endPt.row ≤ b.endPt.row
  let w2 := if w1 && (c.startPt.row = b.startPt.row : Bool) then
              ¬ (c.startPt.col < b.startPt.col) else w1
  if w2 && (c.endPt.row = b.endPt.row : Bool) then
    ¬ (c.endPt.col > b.endPt.col) && w2
  else w2

/-- The per-symbol call lists (`symbols[name]["calls"]`). -/
abbrev CallMap : Type := List (String × List String)

/-- `symbols[name]["calls"].append(called_func)` guarded by the membership
test: extend the first binding of `name` when the call is not yet there
(a name absent from the map is left alone; in the source every block name
is a key of `symbols`). -/
def addCallToSymbol (m : CallMap) (name call : String) : CallMap :=
  match m with
  | [] => []
  | (q, cs) :: rest =>
      if q = name then
        (q, if call ∈ cs then cs else cs ++ [call]) :: rest
      else (q, cs) :: addCallToSymbol rest name call

/-- Attribution of one call over the sorted block array: every surviving
candidate's calls list receives the call name. -/
def attributeCall (m : CallMap) (sortedBlocks : List CodeBlock) (c : CallCap) :
    CallMap :=
  (findPossibleBlocks sortedBlocks c.startPt.row).foldl
    (fun acc b => if withinBlock c b then addCallToSymbol acc b.name c.name else acc)
    m

/-- The whole call-handling pass of `process_matches`: sort `block_array`
by start line (stable), then attribute every collected call capture. -/
def processCalls (m : CallMap) (blocks : List CodeBlock) (calls : List CallCap) :
    CallMap :=
  let sorted := stableSort (fun a b => a.startPt.row < b.startPt.row) blocks
  calls.foldl (fun acc c => attributeCall acc sorted c) m

/-! ## File metadata gate (tree.py `check_file_needs_processing`). -/

/-- One row of the `file_metadata` table. -/
structure FileMeta where
  file_path : String
  last_modified : Int
  file_hash : String
deriving Repr, DecidableEq

/-- tree.py `check_file_needs_processing`: fetch the file's metadata row;
when it exists and its recorded `last_modified` equals the file's current
mtime the file is skipped (`False`), otherwise it needs processing. -/
def check_file_needs_processing (table : List FileMeta) (full_path : String)
    (mtime : Int) : Bool :=
  match table.find? (fun m => m.file_path = full_path) with
  | some m => if m.last_modified = mtime then false else true
  | none => true

/-! ## Identifiable path (tree.py `extract_identifiable_path`). -/

/-- tree.py `extract_identifiable_path`: the file's basename, except that
for `__init__.py` the parent directory name is prepended (POSIX paths). -/
def extract_identifiable_path (fp : String) : String :=
  let comps := fp.splitOn "/"
  let base := comps.getLastD ""
  if base = "__init__.py" then
    let dir := comps.dropLast.getLastD ""
    if dir ≠ "" then dir ++ "/" ++ base else base
  else base

/-! ## Prefix index (tree.py `TrieNode` / `SymbolTrie`). -/

/-- The summary stored at a trie node (the `symbol_info` dict
`insert_symbol` / `process_symbols_to_db` build). -/
structure TrieInfo where
  name : String
  file_path : String
  signature : String
  full_definition_hash : Nat
deriving Repr, DecidableEq

/-- tree.py `TrieNode`: children (dict, modelled as an association list in
insertion order), end-of-word flag, and the list of symbol summaries. -/
inductive TNode where
  | mk (children : List (Char × TNode)) (is_end : Bool) (symbols : List TrieInfo)

/-- Children of a node. -/
def TNode.children : TNode → List (Char × TNode)
  | .mk cs _ _ => cs

/-- End-of-word flag of a node. -/
def TNode.isEnd : TNode → Bool
  | .mk _ e _ => e

/-- Symbol summaries of a node. -/
def TNode.symbols : TNode → List TrieInfo
  | .mk _ _ syms => syms

/-- A fresh empty node (`TrieNode()`). -/
def TNode.empty : TNode := .mk [] false []

/-- First child bound to `c`. -/
def lookupChild (cs : List (Char × TNode)) (c : Char) : Option TNode :=
  match cs with
  | [] => none
  | (c', t) :: rest => if c' = c then some t else lookupChild rest c

/-- Rebind the first occurrence of `c` to `t` (a Python dict update on an
existing key). -/
def replaceChild (cs : List (Char × TNode)) (c : Char) (t : TNode) :
    List (Char × TNode) :=
  match cs with
  | [] => []
  | (c', t') :: rest =>
      if c' = c then (c, t) :: rest else (c', t') :: replaceChild rest c t

/-- The body of `SymbolTrie.insert` without its trailing composite-key
re-insertion: descend along the word creating children as needed, then at
the final node append the summary unless one with the same
`full_definition_hash` is already there. Returns the new subtree, whether
the summary was appended, and whether the unique-symbol count grew. -/
def TNode.insertAux : TNode → List Char → TrieInfo → TNode × Bool × Bool
  | .mk cs e syms, [], info =>
      if syms.any (fun s => s.full_definition_hash = info.full_definition_hash) then
        (.mk cs e syms, false, false)
      else
        (.mk cs true (syms ++ [info]), true, !e)
  | .mk cs e syms, c :: rest, info =>
      match lookupChild cs c with
      | some child =>
          let r := child.insertAux rest info
          (.mk (replaceChild cs c r.1) e syms, r.2)
      | none =>
          let r := TNode.empty.insertAux rest info
          (.mk (cs ++ [(c, r.1)]) e syms, r.2)

/-- tree.py `SymbolTrie`: root node plus the unique-symbol count
(`_normalize` returns the word unchanged). -/
structure SymbolTrie where
  root : TNode
  size : Nat

/-- The empty trie (`SymbolTrie.from_symbols({})`). -/
def SymbolTrie.empty : SymbolTrie := ⟨TNode.empty, 0⟩

/-- `str.startswith` over the character lists. -/
def strStartsWith (s pre : String) : Bool :=
  pre.data.isPrefixOf s.data

/-- The composite key inserted for a bare name:
`symbol:<identifiable-path>/<name>`. -/
def compositeKey (name : String) (info : TrieInfo) : String :=
  "symbol:" ++ extract_identifiable_path info.file_path ++ "/" ++ name

/-- One bare insertion step on the whole trie: subtree update plus the
unique-symbol count update. Returns the new trie and the appended flag. -/
def SymbolTrie.insertStep (t : SymbolTrie) (name : String) (info : TrieInfo) :
    SymbolTrie × Bool :=
  let r := t.root.insertAux name.data info
  (⟨r.1, t.size + (if r.2.2 then 1 else 0)⟩, r.2.1)

/-- tree.py `SymbolTrie.insert`: insert the name; when the summary was
actually appended and the name is not already file-qualified, additionally
insert the composite `symbol:<basename>/<name>` key (which triggers no
further insertion). -/
def SymbolTrie.insert (t : SymbolTrie) (name : String) (info : TrieInfo) :
    SymbolTrie :=
  let r := t.insertStep name info
  if r.2 && !(strStartsWith name "symbol:") then
    (r.1.insertStep (compositeKey name info) info).1
  else r.1

/-- The self-recursion of `SymbolTrie.insert` made explicit: `fuel` bounds
the recursion depth (`none` = the recursion would need more nested calls);
alongside the resulting trie the number of nested `insert` invocations is
returned. -/
def insertDepth : Nat → SymbolTrie → String → TrieInfo → Option (SymbolTrie × Nat)
  | 0, _, _, _ => none
  | fuel + 1, t, name, info =>
      let r := t.insertStep name info
      if r.2 && !(strStartsWith name "symbol:") then
        match insertDepth fuel r.1 (compositeKey name info) info with
        | some (t', n) => some (t', n + 1)
        | none => none
      else some (r.1, 0)

/-- Locate the node of a word in the trie, when the whole path exists. -/
def TNode.findNode : TNode → List Char → Option TNode
  | n, [] => some n
  | n, c :: rest =>
      match lookupChild n.children c with
      | some child => child.findNode rest
      | none => none

/-! ## Symbol store operations (tree.py `insert_symbol`, `search_symbols`,
`get_symbol_context`). The `symbols` table is a list of rows in rowid
(insertion) order. -/

/-- One row of the `symbols` table (the columns these operations read). -/
structure DBRow where
  name : String
  file_path : String
  type : String
  signature : String
  body : String
  full_definition : String
  full_definition_hash : Nat
  calls : List String
deriving Repr, DecidableEq

/-- The record passed to `insert_symbol` (`symbol_info` dict). -/
structure SymbolRecord where
  name : String
  file_path : String
  type : String
  signature : String
  body : String
  full_definition : String
  calls : List String
deriving Repr, DecidableEq

/-- Validate a list of values in order with `validate_input`, stopping at
the first violation. -/
def validateAll : List String → Except String Unit
  | [] => .ok ()
  | v :: rest =>
      match validate_input v 255 with
      | .error e => .error e
      | .ok _ => validateAll rest

/-- tree.py `insert_symbol`: validate the six record fields and every call
name; then insert the row (a `(name, file_path)` uniqueness conflict is
caught and rolled back silently) and insert the summary into the trie,
in that order. A validation failure raises before anything is touched. -/
def insert_symbol (db : List DBRow) (trie : SymbolTrie) (s : SymbolRecord) :
    Except String (List DBRow × SymbolTrie) :=
  match validateAll [s.name, s.file_path, s.type, s.signature, s.body,
                     s.full_definition] with
  | .error e => .error ("validation failed: " ++ e)
  | .ok _ =>
    match validateAll s.calls with
    | .error e => .error ("validation failed: " ++ e)
    | .ok _ =>
      let h := calculate_crc32_hash s.full_definition
      if db.any (fun r => r.name = s.name && r.file_path = s.file_path) then
        .ok (db, trie)
      else
        .ok (db ++ [⟨s.name, s.file_path, s.type, s.signature, s.body,
                     s.full_definition, h, s.calls⟩],
             trie.insert s.name ⟨s.name, s.file_path, s.signature, h⟩)

/-- The observable outcome of `insert_symbol`: a raised validation error
leaves the store and the trie as they were (the transaction is rolled
back and nothing was written before the raise). -/
def insert_symbol_run (db : List DBRow) (trie : SymbolTrie) (s : SymbolRecord) :
    List DBRow × SymbolTrie :=
  match insert_symbol db trie s with
  | .ok st => st
  | .error _ => (db, trie)

/-- SQL `LIKE` matching: `%` matches any sequence, `_` any one character,
letters match ASCII case-insensitively (SQLite's default). The fuel only
drives structural recursion; every call site supplies enough of it
(pattern length plus string length plus one) for the fuel never to run
out. -/
def likeCharsF : Nat → List Char → List Char → Bool
  | 0, _, _ => false
  | _ + 1, [], [] => true
  | fuel + 1, '%' :: ps, s =>
      likeCharsF fuel ps s ||
        (match s with
         | [] => false
         | _ :: s' => likeCharsF fuel ('%' :: ps) s')
  | fuel + 1, '_' :: ps, _ :: s => likeCharsF fuel ps s
  | fuel + 1, p :: ps, c :: s =>
      (p.toLower = c.toLower : Bool) && likeCharsF fuel ps s
  | _ + 1, _, _ => false

/-- `LIKE` over strings. -/
def likeMatch (pattern s : String) : Bool :=
  likeCharsF (pattern.length + s.length + 1) pattern.data s.data

/-- tree.py `search_symbols`: validate the prefix and the limit, then
return `(name, file_path)` of the rows whose name matches
`prefix || '%'`, in table order, truncated to the limit. -/
def search_symbols (db : List DBRow) (pre : String) (limit : Nat) :
    Except String (List (String × String)) :=
  match validate_input pre 255 with
  | .error e => .error e
  | .ok _ =>
    if 1 ≤ limit ∧ limit ≤ 100 then
      .ok (((db.filter (fun r => likeMatch (pre ++ "%") r.name)).map
              (fun r => (r.name, r.file_path))).take limit)
    else .error "limit must be between 1 and 100"

/-- One row of the recursive CTE `call_tree`: `(name, file_path, depth)`. -/
structure CTERow where
  name : String
  file_path : String
  depth : Nat
deriving Repr, DecidableEq

/-- One recursive step of the CTE: a `call_tree` row with
`depth < max_depth - 1` joins the symbol row it names and emits one new
row per entry of that row's `calls` list. -/
def cteStep (db : List DBRow) (maxDepth : Int) (r : CTERow) : List CTERow :=
  if (r.depth : Int) < maxDepth - 1 then
    (db.filter (fun s => s.name = r.name && s.file_path = r.file_path)).flatMap
      (fun s => s.calls.map (fun c => ⟨c, s.file_path, r.depth + 1⟩))
  else []

/-- The queue-driven evaluation of the recursive CTE, level by level
(SQLite's `UNION ALL` recursive CTE processes its queue in FIFO order, so
all rows of one depth precede all rows of the next). -/
def cteLevels (db : List DBRow) (maxDepth : Int) :
    Nat → List CTERow → List (List CTERow)
  | 0, _ => []
  | fuel + 1, frontier =>
      if frontier.isEmpty then []
      else frontier :: cteLevels db maxDepth fuel (frontier.flatMap (cteStep db maxDepth))

/-- First-occurrence deduplication with an explicit seen set. -/
def distinctAux (seen : List (String × String)) :
    List (String × String) → List (String × String)
  | [] => []
  | p :: rest =>
      if p ∈ seen then distinctAux seen rest
      else p :: distinctAux (p :: seen) rest

/-- `SELECT DISTINCT name, file_path FROM call_tree WHERE depth <= max_depth`:
first-occurrence deduplication over the generated rows. -/
def distinctPairs (l : List (String × String)) : List (String × String) :=
  distinctAux [] l

/-- All `(name, file_path)` rows the call-tree query returns for one root
symbol (depth-0 rows are the table rows matching the name and the optional
path filter, in table order). -/
def callTreeRows (db : List DBRow) (symbol_name : String)
    (file_path : Option String) (maxDepth : Int) : List (String × String) :=
  let level0 : List CTERow :=
    (db.filter (fun s =>
        s.name = symbol_name &&
          (match file_path with
           | some fp => likeMatch ("%" ++ fp ++ "%") s.file_path
           | none => true))).map (fun s => ⟨s.name, s.file_path, 0⟩)
  let allRows := (cteLevels db maxDepth ((maxDepth.toNat) + 2) level0).flatten
  distinctPairs ((allRows.filter (fun r => (r.depth : Int) ≤ maxDepth)).map
    (fun r => (r.name, r.file_path)))

/-- The `symbol_dict` accumulation of `get_symbol_context`: first path per
name wins, except that a later path ending in the query's path hint
replaces it. -/
def buildSymbolDict (file_path : Option String) :
    List (String × String) → List (String × String) → List (String × String)
  | acc, [] => acc
  | acc, (n, p) :: rest =>
      if (acc.find? (fun e => e.1 = n)).isSome then
        let acc' :=
          match file_path with
          | some fp =>
              if p.endsWith fp then
                acc.map (fun e => if e.1 = n then (n, p) else e)
              else acc
          | none => acc
        buildSymbolDict file_path acc' rest
      else buildSymbolDict file_path (acc ++ [(n, p)]) rest

/-- The sort key of `sorted(symbol_dict.keys(), key=(x != root, x))`:
the root symbol strictly first, then lexicographic name order. -/
def contextKeyLt (root a b : String) : Bool :=
  (if a = root then 0 else 1) < (if b = root then 0 else 1) ||
    ((if a = root then 0 else 1) = (if b = root then 0 else 1) && a < b)

/-- The result of `get_symbol_context`: either the not-found dict or the
context dict with its definitions list. -/
inductive ContextResult where
  | notFound (symbol_name : String)
  | found (symbol_name : String) (file_path : Option String) (max_depth : Int)
      (definitions : List (String × String × String))
deriving Repr, DecidableEq

/-- tree.py `get_symbol_context`: validate the symbol name and the depth,
run the recursive call-tree query, deduplicate into `symbol_dict`, sort
the names root-first-then-alphabetical, and fetch the definitions with
`SELECT ... WHERE name IN (...)` — a query with no ORDER BY, which
returns the matching rows in table scan order. -/
def get_symbol_context (db : List DBRow) (symbol_name : String)
    (file_path : Option String) (max_depth : Int) :
    Except String ContextResult :=
  match validate_input symbol_name 255 with
  | .error e => .error e
  | .ok _ =>
    if max_depth < 0 ∨ max_depth > 10 then .error "depth must be between 0 and 10"
    else
      let rows := callTreeRows db symbol_name file_path max_depth
      if rows.isEmpty then .ok (.notFound symbol_name)
      else
        let dict0 := buildSymbolDict file_path [] rows
        let dict :=
          if (dict0.find? (fun e => e.1 = symbol_name)).isSome then dict0
          else dict0 ++ [(symbol_name,
                          match file_path with
                          | some fp => fp
                          | none => (rows.headD ("", "")).2)]
        let sortedSymbols :=
          stableSort (contextKeyLt symbol_name) (dict.map (fun e => e.1))
        let definitions :=
          (db.filter (fun r => sortedSymbols.contains r.name)).map
            (fun r => (r.name, r.file_path, r.full_definition))
        .ok (.found symbol_name file_path max_depth definitions)

/-! ## Concrete example data used by witnesses and counterexamples. -/

/-- A symbols-table row for `apple` (no calls), inserted first. -/
def c6RowA : DBRow :=
  ⟨"apple", "/p/f.py", "function", "def apple()", "pass",
   "def apple(): pass", 1, []⟩

/-- A symbols-table row for `zebra`, which calls `apple`, inserted second. -/
def c6RowZ : DBRow :=
  ⟨"zebra", "/p/f.py", "function", "def zebra()", "apple()",
   "def zebra(): apple()", 2, ["apple"]⟩

/-- The example symbols table, in rowid order. -/
def c6DB : List DBRow := [c6RowA, c6RowZ]

/-! ## Theorems. -/

/-- Rebinding a successfully looked-up child to the very same subtree is
the identity on the children list. -/
theorem replaceChild_lookup_eq (cs : List (Char × TNode)) (c : Char) (t : TNode)
    (h : lookupChild cs c = some t) : replaceChild cs c t = cs := by
  induction cs with
  | nil => simp [lookupChild] at h
  | cons e rest ih =>
      obtain ⟨c', t'⟩ := e
      by_cases hc : c' = c
      · subst hc
        have ht : t' = t := by simpa [lookupChild] using h
        subst ht
        simp [replaceChild]
      · simp only [lookupChild, if_neg hc] at h
        simp [replaceChild, hc, ih h]

/-- When the word's node exists and already carries the summary's hash,
the insertion step returns the subtree unchanged and reports no append. -/
theorem insertAux_present (chars : List Char) :
    ∀ (n node : TNode) (info : TrieInfo),
      n.findNode chars = some node →
      node.symbols.any
        (fun s => s.full_definition_hash = info.full_definition_hash) = true →
      n.insertAux chars info = (n, false, false) := by
  induction chars with
  | nil =>
      intro n node info hfind hhash
      cases n with
      | mk cs e syms =>
          simp only [TNode.findNode, Option.some.injEq] at hfind
          subst hfind
          simp only [TNode.symbols] at hhash
          simp [TNode.insertAux, hhash]
  | cons c rest ih =>
      intro n node info hfind hhash
      cases n with
      | mk cs e syms =>
          simp only [TNode.findNode, TNode.children] at hfind
          cases hl : lookupChild cs c with
          | none => rw [hl] at hfind; simp at hfind
          | some child =>
              rw [hl] at hfind
              simp only at hfind
              have hstep := ih child node info hfind hhash
              simp [TNode.insertAux, hl, hstep, replaceChild_lookup_eq cs c child hl]

/-- C7: trie insertion is idempotent per (name, definition hash) — when
the name's node already carries the summary's `full_definition_hash`,
`SymbolTrie.insert` returns the trie unchanged (same entries, same
size). -/
theorem trie_insert_idempotent (t : SymbolTrie) (name : String) (info : TrieInfo)
    (node : TNode) (hfind : t.root.findNode name.data = some node)
    (hhash : node.symbols.any
        (fun s => s.full_definition_hash = info.full_definition_hash) = true) :
    t.insert name info = t := by
  cases t with
  | mk root size =>
      have h := insertAux_present name.data root node info hfind hhash
      simp [SymbolTrie.insert, SymbolTrie.insertStep, h]

/-- The example summary used by the trie theorems. -/
def c7Info : TrieInfo := ⟨"foo", "a.py", "def foo()", 42⟩

/-- A trie already holding `foo` (and its composite key) with hash 42. -/
def c7T1 : SymbolTrie := SymbolTrie.empty.insert "foo" c7Info

/-- Witness for C7: re-inserting `foo` with the already-present hash into
the concrete trie leaves it unchanged. -/
theorem trie_insert_idempotent_witness :
    SymbolTrie.insert c7T1 "foo" c7Info = c7T1 :=
  trie_insert_idempotent c7T1 "foo" c7Info
    ((c7T1.root.findNode "foo".data).getD TNode.empty) (by rfl) (by decide)

/-- The composite key always starts with the qualifying pattern. -/
theorem compositeKey_qualified (name : String) (info : TrieInfo) :
    strStartsWith (compositeKey name info) "symbol:" = true := by
  unfold compositeKey strStartsWith
  rw [List.isPrefixOf_iff_prefix]
  obtain ⟨a⟩ := extract_identifiable_path info.file_path
  obtain ⟨b⟩ := name
  exact ⟨(⟨a⟩ : String).data ++ "/".data ++ b, by simp [String.data_append]⟩

/-- Counterexample for C8: inserting the bare (not file-qualified) name
`foo` into a trie already holding its hash performs zero additional
insertions, not exactly one. -/
theorem c8_counterexample :
    strStartsWith "foo" "symbol:" = false ∧
    (insertDepth 2 c7T1 "foo" c7Info).map (fun r => r.2) = some 0 :=
  ⟨rfl, rfl⟩

/-- C8 (amended): a trie insertion recursion always terminates within one
extra level (fuel 2 suffices and reproduces `SymbolTrie.insert`), the one
nested insertion happens exactly when the bare name's summary was actually
appended, and the composite key — being file-qualified — triggers no
further insertion; file-qualified names and deduplicated bare names
perform no second insertion. -/
theorem insert_one_extra_level (t : SymbolTrie) (name : String) (info : TrieInfo) :
    insertDepth 2 t name info =
      some (t.insert name info,
        if (t.insertStep name info).2 && !(strStartsWith name "symbol:")
        then 1 else 0) := by
  show insertDepth (1 + 1) t name info = _
  unfold insertDepth
  by_cases h : ((t.insertStep name info).2 && !(strStartsWith name "symbol:")) = true
  · rw [if_pos h, if_pos h]
    unfold insertDepth
    rw [if_neg (by simp [compositeKey_qualified])]
    unfold SymbolTrie.insert
    rw [if_pos h]
  · rw [if_neg h, if_neg h]
    unfold SymbolTrie.insert
    rw [if_neg h]

/-- C5: a file already present in the metadata table is skipped if and
only if its recorded `last_modified` equals the current mtime, and the
gate's verdict is independent of every row's stored content hash. -/
theorem mtime_gate_sole_criterion (table : List FileMeta) (path : String)
    (mtime : Int) :
    (check_file_needs_processing table path mtime = false ↔
      ∃ m, table.find? (fun x => x.file_path = path) = some m ∧
        m.last_modified = mtime) ∧
    ∀ hashes : FileMeta → String,
      check_file_needs_processing
          (table.map (fun m => ⟨m.file_path, m.last_modified, hashes m⟩))
          path mtime =
        check_file_needs_processing table path mtime := by
  constructor
  · unfold check_file_needs_processing
    cases hfind : table.find? (fun x => x.file_path = path) with
    | none => simp
    | some m =>
        by_cases hm : m.last_modified = mtime
        · simp [hm]
        · simp [hm]
  · intro hashes
    unfold check_file_needs_processing
    induction table with
    | nil => simp
    | cons m rest ih =>
        by_cases hp : m.file_path = path
        · simp [List.find?_cons, hp]
        · simp only [List.map_cons, List.find?_cons, hp, decide_eq_true_eq,
            decide_eq_false_iff_not, not_false_eq_true]
          simpa [hp] using ih

/-- The rejection condition of `validate_input` as the claims phrase it:
empty, longer than 255 characters, or holding a deny-listed character. -/
def invalidValue (s : String) : Prop :=
  s = "" ∨ 255 < s.length ∨ s.data.any isBannedChar = true

instance (s : String) : Decidable (invalidValue s) := by
  unfold invalidValue; infer_instance

/-- An invalid value makes `validate_input` raise. -/
theorem validate_input_invalid (s : String) (h : invalidValue s) :
    ∃ e, validate_input s 255 = .error e := by
  unfold validate_input
  split
  · exact ⟨_, rfl⟩
  · split
    · exact ⟨_, rfl⟩
    · rename_i h1 h2
      rcases h with h | h | h
      · simp [h] at h1
      · simp [h] at h1
      · simp [h] at h2

/-- A list with an invalid member fails batch validation. -/
theorem validateAll_invalid (l : List String) (h : ∃ v ∈ l, invalidValue v) :
    ∃ e, validateAll l = .error e := by
  induction l with
  | nil => simp at h
  | cons v rest ih =>
      cases hv : validate_input v 255 with
      | error e => exact ⟨e, by simp [validateAll, hv]⟩
      | ok u =>
          rcases h with ⟨w, hw, hwi⟩
          rcases List.mem_cons.mp hw with heq | hmem
          · subst heq
            obtain ⟨e, he⟩ := validate_input_invalid w hwi
            rw [hv] at he
            simp at he
          · obtain ⟨e, he⟩ := ih ⟨w, hmem, hwi⟩
            exact ⟨e, by simp [validateAll, hv, he]⟩

/-- An invalid field or call name makes `insert_symbol` raise, and the
store and trie come out as they went in. -/
theorem insert_symbol_aborts (db : List DBRow) (trie : SymbolTrie)
    (s : SymbolRecord)
    (h : (∃ v ∈ [s.name, s.file_path, s.type, s.signature, s.body,
                 s.full_definition], invalidValue v) ∨
         ∃ v ∈ s.calls, invalidValue v) :
    (∃ e, insert_symbol db trie s = .error e) ∧
    insert_symbol_run db trie s = (db, trie) := by
  have herr : ∃ e, insert_symbol db trie s = .error e := by
    rcases h with hf | hc
    · obtain ⟨e, he⟩ := validateAll_invalid _ hf
      exact ⟨_, by unfold insert_symbol; rw [he]⟩
    · cases hfv : validateAll [s.name, s.file_path, s.type, s.signature,
          s.body, s.full_definition] with
      | error e => exact ⟨_, by unfold insert_symbol; rw [hfv]⟩
      | ok u =>
          obtain ⟨e, he⟩ := validateAll_invalid _ hc
          exact ⟨_, by unfold insert_symbol; rw [hfv, he]⟩
  refine ⟨herr, ?_⟩
  obtain ⟨e, he⟩ := herr
  unfold insert_symbol_run
  rw [he]

/-- C10: `insert_symbol` raises a validation error — leaving store and
trie unchanged — whenever any of the fields name, file_path, type,
signature, body or full_definition is empty, longer than 255 characters,
or holds a semicolon, single quote or double quote. -/
theorem insert_symbol_rejects_invalid_fields (db : List DBRow)
    (trie : SymbolTrie) (s : SymbolRecord)
    (h : invalidValue s.name ∨ invalidValue s.file_path ∨
         invalidValue s.type ∨ invalidValue s.signature ∨
         invalidValue s.body ∨ invalidValue s.full_definition) :
    (∃ e, insert_symbol db trie s = .error e) ∧
    insert_symbol_run db trie s = (db, trie) := by
  apply insert_symbol_aborts
  left
  rcases h with h | h | h | h | h | h <;> exact ⟨_, by simp, h⟩

/-- A record whose body holds a deny-listed semicolon. -/
def recWithBadBody : SymbolRecord :=
  ⟨"f", "/p/f.py", "function", "def f()", "x;y", "def f(): pass", []⟩

/-- Witness for C10: the concrete record with a semicolon in its body is
rejected and the empty store and trie stay empty. -/
theorem insert_symbol_rejects_invalid_fields_witness :
    (∃ e, insert_symbol [] SymbolTrie.empty recWithBadBody = .error e) ∧
    insert_symbol_run [] SymbolTrie.empty recWithBadBody =
      ([], SymbolTrie.empty) :=
  insert_symbol_rejects_invalid_fields [] SymbolTrie.empty recWithBadBody
    (by decide)

/-- Counterexample for C9: the `file_path` argument of the context query
is a free-form string the validator would reject (it holds a semicolon),
yet `get_symbol_context` runs the query with it and completes without an
input error. -/
theorem c9_counterexample :
    invalidValue "x;y" ∧
    get_symbol_context c6DB "zebra" (some "x;y") 3 =
      .ok (.notFound "zebra") :=
  ⟨by decide, rfl⟩

/-- C9 (amended): `insert_symbol` validates every record field and call
name, `search_symbols` its prefix and `get_symbol_context` its symbol
name, each aborting with an input error (and, for the insert, no partial
writes) on violation; the optional `file_path` argument of the context
query is the one free-form input used without validation. -/
theorem store_inputs_validated :
    (∀ (db : List DBRow) (trie : SymbolTrie) (s : SymbolRecord),
        ((∃ v ∈ [s.name, s.file_path, s.type, s.signature, s.body,
                 s.full_definition], invalidValue v) ∨
         ∃ v ∈ s.calls, invalidValue v) →
        (∃ e, insert_symbol db trie s = .error e) ∧
        insert_symbol_run db trie s = (db, trie)) ∧
    (∀ (db : List DBRow) (pre : String) (limit : Nat),
        invalidValue pre → ∃ e, search_symbols db pre limit = .error e) ∧
    (∀ (db : List DBRow) (n : String) (fp : Option String) (d : Int),
        invalidValue n → ∃ e, get_symbol_context db n fp d = .error e) := by
  refine ⟨insert_symbol_aborts, ?_, ?_⟩
  · intro db pre limit h
    obtain ⟨e, he⟩ := validate_input_invalid pre h
    exact ⟨e, by unfold search_symbols; rw [he]⟩
  · intro db n fp d h
    obtain ⟨e, he⟩ := validate_input_invalid n h
    exact ⟨e, by unfold get_symbol_context; rw [he]⟩

/-- Witness for the amended C9: all three validated operations abort on
the concrete invalid inputs. -/
theorem store_inputs_validated_witness :
    ((∃ e, insert_symbol [] SymbolTrie.empty recWithBadBody = .error e) ∧
      insert_symbol_run [] SymbolTrie.empty recWithBadBody =
        ([], SymbolTrie.empty)) ∧
    (∃ e, search_symbols [] "x;y" 10 = .error e) ∧
    (∃ e, get_symbol_context [] "x;y" none 3 = .error e) :=
  ⟨store_inputs_validated.1 [] SymbolTrie.empty recWithBadBody
      (Or.inl (by decide)),
   store_inputs_validated.2.1 [] "x;y" 10 (by decide),
   store_inputs_validated.2.2 [] "x;y" none 3 (by decide)⟩

/-- C6: evaluation of `get_symbol_context` at the failing input. The code
computes the root-first-then-alphabetical name order, but the final
definitions query has no ORDER BY and returns the rows in table scan
order: for root `zebra` calling `apple`, `apple`'s definition comes first
and the root is not listed first. -/
theorem context_definitions_order_bug :
    get_symbol_context c6DB "zebra" none 3 =
      .ok (.found "zebra" none 3
        [("apple", "/p/f.py", "def apple(): pass"),
         ("zebra", "/p/f.py", "def zebra(): apple()")]) ∧
    ("apple" : String) ≠ "zebra" :=
  ⟨rfl, by decide⟩

/-- `check_symbol_duplicate` is the signature test over the name's known
entries. -/
theorem check_symbol_duplicate_eq (name sig : String) (idx : ExistingIndex) :
    check_symbol_duplicate name sig idx =
      (existingFor idx name).any (fun ex => ex.signature = sig) := by
  unfold check_symbol_duplicate existingFor
  cases idx.find? (fun e => e.1 = name) <;> simp

/-- The insert row a candidate produces. -/
def mkInsertRow (s : CandidateSymbol) (full_path : String) : InsertRow :=
  ⟨s.name, full_path, s.type, s.signature, s.body, s.full_definition,
   calculate_crc32_hash s.full_definition, s.calls⟩

/-- C3 (amended): a candidate with a full definition is skipped if and
only if an existing entry for its name carries the same signature or the
same definition hash; otherwise exactly its row is written. -/
theorem dedup_skips_same_signature_or_hash (s : CandidateSymbol)
    (idx : ExistingIndex) (full_path : String)
    (hdef : s.full_definition ≠ "") :
    symbolsWrittenToDb [s] idx full_path =
      if (∃ e ∈ existingFor idx s.name, e.signature = s.signature) ∨
         (∃ e ∈ existingFor idx s.name,
            e.hash = calculate_crc32_hash s.full_definition)
      then [] else [mkInsertRow s full_path] := by
  unfold symbolsWrittenToDb prepare_insert_data
  simp only [List.filterMap_cons, List.filterMap_nil, if_neg hdef]
  rw [check_symbol_duplicate_eq]
  by_cases hsig : ∃ e ∈ existingFor idx s.name, e.signature = s.signature
  · have hb : (existingFor idx s.name).any
        (fun ex => ex.signature = s.signature) = true := by
      simpa [List.any_eq_true] using hsig
    simp [hdef, hb, filterByHash, hsig]
  · have hb : (existingFor idx s.name).any
        (fun ex => ex.signature = s.signature) = false := by
      simpa [List.any_eq_true] using hsig
    by_cases hh : ∃ e ∈ existingFor idx s.name,
        e.hash = calculate_crc32_hash s.full_definition
    · have hb2 : (existingFor idx s.name).any
          (fun ex => ex.hash = calculate_crc32_hash s.full_definition) = true := by
        simpa [List.any_eq_true] using hh
      simp [hdef, hb, filterByHash, hsig, hh, hb2, mkInsertRow]
    · have hb2 : (existingFor idx s.name).any
          (fun ex => ex.hash = calculate_crc32_hash s.full_definition) = false := by
        simpa [List.any_eq_true] using hh
      simp [hdef, hb, filterByHash, hsig, hh, hb2, mkInsertRow]

/-- The previously stored full definition of `foo`. -/
def c3OldDef : String := "def foo():\n    return 1"

/-- The re-extracted full definition of `foo`: changed body, same
signature. -/
def c3NewDef : String := "def foo():\n    return 2"

/-- The in-memory index as loaded before re-extraction: one entry for
`foo` carrying the old definition's hash. -/
def c3Idx : ExistingIndex :=
  [("foo", [⟨"/p/f.py", "def foo():", calculate_crc32_hash c3OldDef⟩])]

/-- The re-extracted candidate: same name and signature, new body. -/
def c3Cand : CandidateSymbol :=
  ⟨"foo", "function", "def foo():", "return 2", c3NewDef, []⟩

set_option maxRecDepth 4000 in
/-- Counterexample for C3: `foo`'s definition hash changed (no existing
entry carries the new hash) yet the candidate is skipped — nothing is
written — because its signature is unchanged. -/
theorem c3_counterexample :
    symbolsWrittenToDb [c3Cand] c3Idx "/p/f.py" = [] ∧
    ∀ e ∈ existingFor c3Idx "foo",
      e.hash ≠ calculate_crc32_hash c3Cand.full_definition :=
  ⟨by decide, by decide⟩

/-- Witness for the amended C3: at the concrete re-extraction input the
skip condition holds through the signature disjunct and nothing is
written. -/
theorem dedup_skips_same_signature_or_hash_witness :
    c3Cand.full_definition ≠ "" ∧
    symbolsWrittenToDb [c3Cand] c3Idx "/p/f.py" = [] := by
  refine ⟨by decide, ?_⟩
  rw [dedup_skips_same_signature_or_hash c3Cand c3Idx "/p/f.py" (by decide)]
  rw [if_pos (Or.inl (by decide))]

/-- The calls list recorded for a symbol name. -/
def lookupCalls (m : CallMap) (name : String) : Option (List String) :=
  match m with
  | [] => none
  | (q, cs) :: rest => if q = name then some cs else lookupCalls rest name

/-- Appending a call to a symbol updates that symbol's list and only it. -/
theorem addCall_lookup_eq (m : CallMap) (n call : String) :
    lookupCalls (addCallToSymbol m n call) n =
      (lookupCalls m n).map (fun cs => if call ∈ cs then cs else cs ++ [call]) := by
  induction m with
  | nil => simp [addCallToSymbol, lookupCalls]
  | cons e rest ih =>
      obtain ⟨q, cs⟩ := e
      by_cases hq : q = n
      · subst hq
        simp [addCallToSymbol, lookupCalls]
      · simp [addCallToSymbol, lookupCalls, hq, ih]

/-- Appending a call to one symbol leaves every other name's list alone. -/
theorem addCall_lookup_ne (m : CallMap) (n call name : String) (h : n ≠ name) :
    lookupCalls (addCallToSymbol m n call) name = lookupCalls m name := by
  induction m with
  | nil => simp [addCallToSymbol, lookupCalls]
  | cons e rest ih =>
      obtain ⟨q, cs⟩ := e
      by_cases hq : q = n
      · subst hq
        simp [addCallToSymbol, lookupCalls, h, ih]
      · simp [addCallToSymbol, lookupCalls, hq, ih]

/-- The attribution fold over any candidate list: a name's calls list is
extended by the call exactly when some candidate with that name passes the
containment test, and is extended at most once. -/
theorem attributeFold_lookup (c : CallCap) (L : List CodeBlock) :
    ∀ (m : CallMap) (name : String) (old : List String),
      lookupCalls m name = some old →
      lookupCalls
        (L.foldl
          (fun acc b =>
            if withinBlock c b then addCallToSymbol acc b.name c.name else acc)
          m) name =
      some
        (if (∃ b ∈ L, withinBlock c b = true ∧ b.name = name) ∧ c.name ∉ old
         then old ++ [c.name] else old) := by
  induction L with
  | nil =>
      intro m name old h
      simpa using h
  | cons b L ih =>
      intro m name old h
      simp only [List.foldl_cons]
      by_cases hw : withinBlock c b = true
      · by_cases hn : b.name = name
        · subst hn
          have hstep : lookupCalls (addCallToSymbol m b.name c.name) b.name =
              some (if c.name ∈ old then old else old ++ [c.name]) := by
            rw [addCall_lookup_eq, h]; rfl
          rw [if_pos hw, ih _ _ _ hstep]
          by_cases hco : c.name ∈ old
          · simp [hco]
          · simp [hco, hw]
        · have hstep : lookupCalls (addCallToSymbol m b.name c.name) name =
              some old := by rw [addCall_lookup_ne _ _ _ _ hn, h]
          rw [if_pos hw, ih _ _ _ hstep]
          have hiff : (∃ x ∈ b :: L, withinBlock c x = true ∧ x.name = name) ↔
              ∃ x ∈ L, withinBlock c x = true ∧ x.name = name := by
            simp only [List.mem_cons]
            constructor
            · rintro ⟨x, hx | hx, hxw⟩
              · subst hx; exact absurd hxw.2 hn
              · exact ⟨x, hx, hxw⟩
            · rintro ⟨x, hx, hxw⟩; exact ⟨x, Or.inr hx, hxw⟩
          simp only [hiff]
      · rw [if_neg hw, ih _ _ _ h]
        have hiff : (∃ x ∈ b :: L, withinBlock c x = true ∧ x.name = name) ↔
            ∃ x ∈ L, withinBlock c x = true ∧ x.name = name := by
          simp only [List.mem_cons]
          constructor
          · rintro ⟨x, hx | hx, hxw⟩
            · subst hx; exact absurd hxw.1 hw
            · exact ⟨x, hx, hxw⟩
          · rintro ⟨x, hx, hxw⟩; exact ⟨x, Or.inr hx, hxw⟩
        simp only [hiff]

/-- C4 (amended): a call capture's name is appended (once, deduplicated)
to the calls list of every symbol that the binary-search expansion finds
for the call's start line and that passes the column boundary checks —
possibly several symbols when candidate ranges are nested — and to no
other symbol. -/
theorem call_attributed_to_all_passing_candidates (blocks : List CodeBlock)
    (c : CallCap) (m : CallMap) (name : String) (old : List String)
    (h : lookupCalls m name = some old) :
    lookupCalls (attributeCall m blocks c) name =
      some
        (if (∃ b ∈ findPossibleBlocks blocks c.startPt.row,
              withinBlock c b = true ∧ b.name = name) ∧ c.name ∉ old
         then old ++ [c.name] else old) :=
  attributeFold_lookup c (findPossibleBlocks blocks c.startPt.row) m name old h

/-- The outer example block of the nested-blocks counterexample. -/
def c4BOuter : CodeBlock := ⟨"outer", ⟨0, 0⟩, ⟨10, 0⟩⟩

/-- The inner example block, nested inside the outer one. -/
def c4BInner : CodeBlock := ⟨"inner", ⟨2, 4⟩, ⟨5, 8⟩⟩

/-- A call capture on line 3, inside both blocks. -/
def c4Call : CallCap := ⟨"f", ⟨3, 6⟩, ⟨3, 7⟩⟩

/-- Counterexample for C4: with nested candidate ranges both enclosing the
call line, the call name is appended to the calls lists of two distinct
symbols, not to exactly one innermost symbol. -/
theorem c4_counterexample :
    processCalls [("outer", []), ("inner", [])] [c4BOuter, c4BInner] [c4Call] =
      [("outer", ["f"]), ("inner", ["f"])] ∧
    ("outer" : String) ≠ "inner" :=
  ⟨by decide, by decide⟩

/-- Witness for the amended C4: in the nested example the inner symbol's
calls list receives the call. -/
theorem call_attributed_witness :
    lookupCalls
        (attributeCall [("outer", []), ("inner", [])] [c4BOuter, c4BInner]
          c4Call) "inner" =
      some ["f"] := by
  rw [call_attributed_to_all_passing_candidates [c4BOuter, c4BInner] c4Call
    [("outer", []), ("inner", [])] "inner" [] (by decide)]
  rw [if_pos (by decide)]
  rfl

/-- A range whose expected bytes differ from the file's current bytes at
its offset (a file missing from the file system does not count). -/
def rangeMismatch (fs : FS) (it : PatchItem) : Bool :=
  match fsRead fs it.path with
  | some content => sliceBytes content it.start it.stop ≠ it.expected
  | none => false

/-- When every referenced file exists and some range's bytes differ, the
content check reports a content mismatch. -/
theorem checkContents_mismatch (fs : FS) (req : List PatchItem)
    (hex : req.all (fun it => (fsRead fs it.path).isSome) = true)
    (hmm : ∃ it ∈ req, rangeMismatch fs it = true) :
    ∃ p a b, checkContents fs req = .error (.contentMismatch p a b) := by
  induction req with
  | nil => simp at hmm
  | cons it rest ih =>
      simp only [List.all_cons, Bool.and_eq_true] at hex
      obtain ⟨hex1, hexr⟩ := hex
      cases hread : fsRead fs it.path with
      | none => rw [hread] at hex1; simp at hex1
      | some content =>
          by_cases hsl : sliceBytes content it.start it.stop = it.expected
          · have hstep : checkContents fs (it :: rest) = checkContents fs rest := by
              simp [checkContents, hread, hsl]
            rw [hstep]
            apply ih hexr
            rcases hmm with ⟨w, hw, hwm⟩
            rcases List.mem_cons.mp hw with heq | hmem
            · subst heq
              unfold rangeMismatch at hwm
              rw [hread] at hwm
              simp [hsl] at hwm
            · exact ⟨w, hmem, hwm⟩
          · refine ⟨it.path, it.start, it.stop, ?_⟩
            simp [checkContents, hread, hsl]

/-- C1: a patch request holding some range whose expected bytes differ
from the file's current bytes — all files existing and no overlap among
the request's ranges — makes both `generate_diff` and `apply_patch` fail
with the content-mismatch error, and the file system is unmodified. -/
theorem patch_content_mismatch_rejected (fs : FS) (req : List PatchItem)
    (hov : checkOverlaps (groupByFile req) = .ok ())
    (hex : req.all (fun it => (fsRead fs it.path).isSome) = true)
    (hmm : ∃ it ∈ req, rangeMismatch fs it = true) :
    ∃ p a b,
      generate_diff fs req = .error (.contentMismatch p a b) ∧
      apply_patch fs req = (fs, .error (.contentMismatch p a b)) := by
  obtain ⟨p, a, b, hc⟩ := checkContents_mismatch fs req hex hmm
  have hv : validatePatch fs req = .error (.contentMismatch p a b) := by
    unfold validatePatch
    rw [hov]
    exact hc
  refine ⟨p, a, b, ?_, ?_⟩
  · unfold generate_diff; rw [hv]
  · unfold apply_patch; rw [hv]

/-- A group with overlapping sorted ranges makes the overlap check fail
with an overlap error. -/
theorem checkOverlaps_mem (groups : List (String × List EditRange))
    (p : String) (g : List EditRange) (hmem : (p, g) ∈ groups)
    (hov : hasAdjacentOverlap (sortRanges g) = true) :
    ∃ q, checkOverlaps groups = .error (.overlap q) := by
  induction groups with
  | nil => simp at hmem
  | cons hd rest ih =>
      obtain ⟨q0, rs0⟩ := hd
      by_cases h0 : hasAdjacentOverlap (sortRanges rs0) = true
      · exact ⟨q0, by unfold checkOverlaps; rw [if_pos h0]⟩
      · rcases List.mem_cons.mp hmem with heq | hmemr
        · obtain ⟨hp, hg⟩ := Prod.mk.inj heq
          rw [hg] at hov
          exact absurd hov h0
        · obtain ⟨q, hq⟩ := ih hmemr
          exact ⟨q, by unfold checkOverlaps; rw [if_neg h0]; exact hq⟩

/-- C2: a patch request in which two of one file's ranges overlap — after
sorting that file's ranges by start offset some adjacent pair has
`start[i+1] < end[i]` — makes both `generate_diff` and `apply_patch` fail
with the overlap error, and the file system is unmodified. -/
theorem patch_overlap_rejected (fs : FS) (req : List PatchItem)
    (p : String) (g : List EditRange) (hmem : (p, g) ∈ groupByFile req)
    (hov : hasAdjacentOverlap (sortRanges g) = true) :
    ∃ q,
      generate_diff fs req = .error (.overlap q) ∧
      apply_patch fs req = (fs, .error (.overlap q)) := by
  obtain ⟨q, hq⟩ := checkOverlaps_mem (groupByFile req) p g hmem hov
  have hv : validatePatch fs req = .error (.overlap q) := by
    unfold validatePatch
    rw [hq]
  refine ⟨q, ?_, ?_⟩
  · unfold generate_diff; rw [hv]
  · unfold apply_patch; rw [hv]

/-- The example file system of the patch witnesses: one file of thirty
bytes 0..29. -/
def pFS : FS := [("a.py", List.range 30)]

/-- A valid range of the example file (bytes 0..2, matching expected). -/
def pItemOk : PatchItem := ⟨"a.py", 0, 3, [0, 1, 2], [7, 7]⟩

/-- A range whose expected bytes differ from the file's bytes 5..7. -/
def pItemBad : PatchItem := ⟨"a.py", 5, 8, [9, 9, 9], [1]⟩

/-- The overlapping ranges (10,20) and (15,25) of the example file. -/
def pItemOv1 : PatchItem := ⟨"a.py", 10, 20, List.range' 10 10, [1]⟩

/-- The second overlapping range. -/
def pItemOv2 : PatchItem := ⟨"a.py", 15, 25, List.range' 15 10, [2]⟩

/-- Witness for C1: the request with one valid and one mismatching range
is rejected whole by both operations and the file system stays intact. -/
theorem patch_content_mismatch_rejected_witness :
    ∃ p a b,
      generate_diff pFS [pItemOk, pItemBad] = .error (.contentMismatch p a b) ∧
      apply_patch pFS [pItemOk, pItemBad] =
        (pFS, .error (.contentMismatch p a b)) :=
  patch_content_mismatch_rejected pFS [pItemOk, pItemBad] (by rfl)
    (by decide) (by decide)

/-- Witness for C2: the request with ranges (10,20) and (15,25) on the
same file is rejected by both operations and the file system stays
intact. -/
theorem patch_overlap_rejected_witness :
    ∃ q,
      generate_diff pFS [pItemOv1, pItemOv2] = .error (.overlap q) ∧
      apply_patch pFS [pItemOv1, pItemOv2] = (pFS, .error (.overlap q)) :=
  patch_overlap_rejected pFS [pItemOv1, pItemOv2] "a.py"
    [pItemOv1.range, pItemOv2.range] (by decide) (by decide)

end Spec2Proof
